import Mathlib

/-!
Shallow embedding of the ATSP environment of `rl4co/envs/atsp.py`
(class `ATSPEnv`): the per-instance episode state machine (`_step`,
`_reset`), the tour validator and scorer (`get_reward`), and the
metric-closure distance-matrix generator (`generate_data`).

Every batch instance is processed independently by elementwise tensor
operations in the source, so the embedding models a single batch
instance; node indices are `Fin n` and distances are rationals.
-/

namespace ATSP

/-- Episode state of one batch instance: the fields of the TensorDict
produced by `ATSPEnv._reset` and threaded through `ATSPEnv._step`. -/
structure EpisodeState (n : ℕ) where
  observation : Fin n → Fin n → ℚ
  first_node : Fin n
  current_node : Fin n
  i : ℕ
  action_mask : Fin n → Bool

/-- One transition of `ATSPEnv._step`: `first_node` is set to the action
when `i == 0`, `current_node` becomes the action, the mask entry of the
action is scattered to 0 (false), and `i` is incremented. -/
def _step {n : ℕ} (td : EpisodeState n) (action : Fin n) : EpisodeState n :=
  { observation := td.observation
    first_node := if td.i = 0 then action else td.first_node
    current_node := action
    i := td.i + 1
    action_mask := fun j => if j = action then false else td.action_mask j }

/-- Number of still-available (true) mask entries, `torch.count_nonzero`. -/
def countAvailable {n : ℕ} (mask : Fin n → Bool) : ℕ :=
  (Finset.univ.filter fun j => mask j = true).card

/-- Number of visited (false) mask entries. -/
def countVisited {n : ℕ} (mask : Fin n → Bool) : ℕ :=
  (Finset.univ.filter fun j => mask j = false).card

/-- The `done` flag computed by `_step`: `count_nonzero(available) <= 0`. -/
def isDone {n : ℕ} (td : EpisodeState n) : Bool :=
  decide (countAvailable td.action_mask ≤ 0)

/-- State produced by `ATSPEnv._reset` for a supplied distance matrix:
`current_node = first_node = 0`, `i = 0`, mask all true. The matrix is
stored verbatim, without any validation. -/
def _reset {n : ℕ} (hn : 0 < n) (init_dm : Fin n → Fin n → ℚ) : EpisodeState n :=
  { observation := init_dm
    first_node := ⟨0, hn⟩
    current_node := ⟨0, hn⟩
    i := 0
    action_mask := fun _ => true }

/-- Folding `_step` over a list of actions. -/
def runSteps {n : ℕ} (s : EpisodeState n) : List (Fin n) → EpisodeState n
  | [] => s
  | a :: rest => runSteps (_step s a) rest

/-- Every action of the list is legal (mask entry true) at the moment it
is taken. -/
def legalSeq {n : ℕ} (s : EpisodeState n) : List (Fin n) → Bool
  | [] => true
  | a :: rest => s.action_mask a && legalSeq (_step s a) rest

/-- The right-rotation `torch.roll(actions, 1, dims=1)` of the action
sequence: element `i` of the result is element `(i-1) mod N` of the input. -/
def roll1 {α : Type} : List α → List α
  | [] => []
  | x :: xs => (x :: xs).getLast (by simp) :: (x :: xs).dropLast

/-- The assertion of `ATSPEnv.get_reward`: sorting the action sequence
must reproduce `torch.arange(actions.size(1))`. -/
def tourValid {n : ℕ} (actions : List (Fin n)) : Bool :=
  decide (List.insertionSort (· ≤ ·) (actions.map Fin.val) = List.range actions.length)

/-- Tour cost of `ATSPEnv.get_reward`: the sum over positions of
`distance_matrix[src, tgt]` with `src = actions` and
`tgt = torch.roll(actions, 1)`. -/
def tourCost {n : ℕ} (d : Fin n → Fin n → ℚ) (actions : List (Fin n)) : ℚ :=
  ((actions.zip (roll1 actions)).map fun p => d p.1 p.2).sum

/-- `ATSPEnv.get_reward`: `none` models the `"Invalid tour"` assertion
failure; otherwise the summed tour cost is returned. -/
def get_reward {n : ℕ} (d : Fin n → Fin n → ℚ) (actions : List (Fin n)) : Option ℚ :=
  if tourValid actions then some (tourCost d actions) else none

/-- One relaxation pass of `ATSPEnv.generate_data`:
`(dms[..., :, None, :] + dms[..., None, :, :].transpose(-2, -1)).min(dim=-1)`,
i.e. entry `(i, j)` becomes the minimum over `k` of `d i k + d k j`. -/
def relaxPass {n : ℕ} [NeZero n] (d : Fin n → Fin n → ℚ) : Fin n → Fin n → ℚ :=
  fun i j => Finset.univ.inf' Finset.univ_nonempty fun k => d i k + d k j

/-- The `while True` loop of `ATSPEnv.generate_data`: apply a relaxation
pass, stop as soon as a pass leaves the matrix unchanged. The loop of the
source is unbounded; fuel only bounds the number of passes of the model,
and the development proves a fixpoint is reached within
`Nat.clog 2 n + 1` passes for the matrices the generator draws. -/
def closureLoop {n : ℕ} [NeZero n] : ℕ → (Fin n → Fin n → ℚ) → (Fin n → Fin n → ℚ)
  | 0, d => d
  | fuel + 1, d =>
    if relaxPass d = d then relaxPass d else closureLoop fuel (relaxPass d)

/-- The initial random draw of `ATSPEnv.generate_data`:
`torch.rand(...) * (max_dist - min_dist) + min_dist` with the diagonal
then set to 0; `r` stands for the uniform `[0, 1)` sample. -/
def initDM (n : ℕ) (minD maxD : ℚ) (r : Fin n → Fin n → ℚ) : Fin n → Fin n → ℚ :=
  fun i j => if i = j then 0 else r i j * (maxD - minD) + minD

/-- `ATSPEnv.generate_data` for one batch instance: random draw, zero
diagonal, then relaxation passes until fixpoint. -/
def generate_data (n : ℕ) [NeZero n] (minD maxD : ℚ) (r : Fin n → Fin n → ℚ) :
    Fin n → Fin n → ℚ :=
  closureLoop (Nat.clog 2 n + 1) (initDM n minD maxD r)

/-- Weight of the walk `i, l₀, l₁, …, j` in the matrix `d` (the list
holds the intermediate vertices). Used to analyse the relaxation loop. -/
def walkWeight {n : ℕ} (d : Fin n → Fin n → ℚ) : Fin n → List (Fin n) → Fin n → ℚ
  | i, [], j => d i j
  | i, k :: l, j => d i k + walkWeight d k l j

section StateMachine

variable {n : ℕ}

lemma _step_mask_mono (td : EpisodeState n) (a j : Fin n)
    (h : td.action_mask j = false) : (_step td a).action_mask j = false := by
  simp only [_step]
  split <;> simp [h]

lemma runSteps_append (s : EpisodeState n) (p q : List (Fin n)) :
    runSteps s (p ++ q) = runSteps (runSteps s p) q := by
  induction p generalizing s with
  | nil => rfl
  | cons a rest ih => simp [runSteps, ih]

lemma runSteps_mask_mono (s : EpisodeState n) (acts : List (Fin n)) (j : Fin n)
    (h : s.action_mask j = false) : (runSteps s acts).action_mask j = false := by
  induction acts generalizing s with
  | nil => exact h
  | cons a rest ih => exact ih _ (_step_mask_mono s a j h)

lemma countVisited_step (td : EpisodeState n) (a : Fin n)
    (h : td.action_mask a = true) :
    countVisited (_step td a).action_mask = countVisited td.action_mask + 1 := by
  have hset :
      (Finset.univ.filter fun j => (_step td a).action_mask j = false) =
        insert a (Finset.univ.filter fun j => td.action_mask j = false) := by
    ext j
    by_cases hj : j = a <;> simp [_step, hj, h]
  rw [countVisited, hset, Finset.card_insert_of_not_mem (by simp [h]), countVisited]

lemma runSteps_countVisited (acts : List (Fin n)) (s : EpisodeState n)
    (hleg : legalSeq s acts = true) :
    countVisited (runSteps s acts).action_mask =
      countVisited s.action_mask + acts.length := by
  induction acts generalizing s with
  | nil => rfl
  | cons a rest ih =>
    rw [legalSeq, Bool.and_eq_true] at hleg
    rw [runSteps, ih _ hleg.2, countVisited_step s a hleg.1, List.length_cons]
    ring

lemma runSteps_i (acts : List (Fin n)) (s : EpisodeState n) :
    (runSteps s acts).i = s.i + acts.length := by
  induction acts generalizing s with
  | nil => rfl
  | cons a rest ih => rw [runSteps, ih, _step, List.length_cons]; ring

lemma countVisited_reset (hn : 0 < n) (dm : Fin n → Fin n → ℚ) :
    countVisited (_reset hn dm).action_mask = 0 := by
  simp [countVisited, _reset]

lemma countVisited_add_countAvailable (mask : Fin n → Bool) :
    countVisited mask + countAvailable mask = n := by
  rw [countVisited, countAvailable]
  have h2 : (Finset.univ.filter fun j => mask j = true) =
      (Finset.univ.filter fun j => ¬ mask j = false) := by
    apply Finset.filter_congr
    intro j _
    simp
  rw [h2, Finset.filter_card_add_filter_neg_card_eq_card, Finset.card_univ,
    Fintype.card_fin]

lemma runSteps_observation (s : EpisodeState n) (acts : List (Fin n)) :
    (runSteps s acts).observation = s.observation := by
  induction acts generalizing s with
  | nil => rfl
  | cons a rest ih => rw [runSteps, ih]; rfl

lemma run_countVisited_eq_i (hn : 0 < n) (dm : Fin n → Fin n → ℚ)
    (acts : List (Fin n)) (hleg : legalSeq (_reset hn dm) acts = true) :
    countVisited (runSteps (_reset hn dm) acts).action_mask =
      (runSteps (_reset hn dm) acts).i := by
  rw [runSteps_countVisited acts _ hleg, countVisited_reset, runSteps_i]
  rfl

lemma isDone_iff (s : EpisodeState n) :
    isDone s = true ↔ ∀ j, s.action_mask j = false := by
  rw [isDone, decide_eq_true_iff, Nat.le_zero, countAvailable,
    Finset.card_eq_zero, Finset.filter_eq_empty_iff]
  simp

lemma isDone_run_iff (hn : 0 < n) (dm : Fin n → Fin n → ℚ)
    (acts : List (Fin n)) (hleg : legalSeq (_reset hn dm) acts = true) :
    isDone (runSteps (_reset hn dm) acts) = true ↔
      (runSteps (_reset hn dm) acts).i = n := by
  have hcv := run_countVisited_eq_i hn dm acts hleg
  have hsum := countVisited_add_countAvailable (runSteps (_reset hn dm) acts).action_mask
  rw [isDone, decide_eq_true_iff, Nat.le_zero]
  omega

end StateMachine

/-- C4: from a reset state (`stepIndex = 0`, `currentNode = firstNode = 0`,
`visitedMask` all true), along any sequence of legal steps a mask entry
that is false never becomes true again, and the number of false entries
always equals the step index. -/
theorem C4_mask_invariant {n : ℕ} (hn : 0 < n) (dm : Fin n → Fin n → ℚ)
    (acts : List (Fin n)) (hleg : legalSeq (_reset hn dm) acts = true) :
    ((_reset hn dm).i = 0 ∧ (_reset hn dm).current_node = ⟨0, hn⟩ ∧
      (_reset hn dm).first_node = ⟨0, hn⟩ ∧
      ∀ j, (_reset hn dm).action_mask j = true) ∧
    (∀ p q, acts = p ++ q → ∀ j : Fin n,
      (runSteps (_reset hn dm) p).action_mask j = false →
      (runSteps (_reset hn dm) acts).action_mask j = false) ∧
    countVisited (runSteps (_reset hn dm) acts).action_mask =
      (runSteps (_reset hn dm) acts).i := by
  refine ⟨⟨rfl, rfl, rfl, fun j => rfl⟩, ?_, run_countVisited_eq_i hn dm acts hleg⟩
  intro p q hpq j hj
  subst hpq
  rw [runSteps_append]
  exact runSteps_mask_mono _ q j hj

theorem C4_mask_invariant_witness :
    (legalSeq (_reset (by decide : 0 < 2) (fun _ _ => (0 : ℚ))) [0, 1] = true) ∧
    (((_reset (by decide : 0 < 2) (fun _ _ => (0 : ℚ))).i = 0 ∧
      (_reset (by decide : 0 < 2) (fun _ _ => (0 : ℚ))).current_node = ⟨0, by decide⟩ ∧
      (_reset (by decide : 0 < 2) (fun _ _ => (0 : ℚ))).first_node = ⟨0, by decide⟩ ∧
      ∀ j, (_reset (by decide : 0 < 2) (fun _ _ => (0 : ℚ))).action_mask j = true) ∧
    (∀ p q, [0, 1] = p ++ q → ∀ j : Fin 2,
      (runSteps (_reset (by decide : 0 < 2) (fun _ _ => (0 : ℚ))) p).action_mask j = false →
      (runSteps (_reset (by decide : 0 < 2) (fun _ _ => (0 : ℚ))) [0, 1]).action_mask j = false) ∧
    countVisited (runSteps (_reset (by decide : 0 < 2) (fun _ _ => (0 : ℚ))) [0, 1]).action_mask =
      (runSteps (_reset (by decide : 0 < 2) (fun _ _ => (0 : ℚ))) [0, 1]).i) :=
  ⟨by decide, C4_mask_invariant (by decide) (fun _ _ => (0 : ℚ)) [0, 1] (by decide)⟩

/-- C5: a legal step sets `firstNode` to the action exactly when the prior
step index is 0, sets `currentNode` to the action, clears only the
action's mask entry, increments the step index; `done` holds exactly when
no mask entry remains true, and along a legal episode from reset `done`
holds exactly when the step index equals `numLoc`. -/
theorem C5_step_effects {n : ℕ} (td : EpisodeState n) (a : Fin n)
    (hleg : td.action_mask a = true) :
    ((_step td a).first_node = if td.i = 0 then a else td.first_node) ∧
    (_step td a).current_node = a ∧
    (_step td a).action_mask a = false ∧
    (∀ j, j ≠ a → (_step td a).action_mask j = td.action_mask j) ∧
    (_step td a).i = td.i + 1 ∧
    (isDone (_step td a) = true ↔ ∀ j, (_step td a).action_mask j = false) ∧
    ∀ (hn : 0 < n) (dm : Fin n → Fin n → ℚ) (acts : List (Fin n)),
      legalSeq (_reset hn dm) acts = true →
      (isDone (runSteps (_reset hn dm) acts) = true ↔
        (runSteps (_reset hn dm) acts).i = n) := by
  refine ⟨rfl, rfl, by simp [_step], ?_, rfl, isDone_iff _, ?_⟩
  · intro j hj
    simp [_step, hj]
  · intro hn dm acts hl
    exact isDone_run_iff hn dm acts hl

theorem C5_step_effects_witness :
    ((_reset (by decide : 0 < 2) (fun _ _ => (0 : ℚ))).action_mask 0 = true) ∧
    (((_step (_reset (by decide : 0 < 2) (fun _ _ => (0 : ℚ))) 0).first_node =
        if (_reset (by decide : 0 < 2) (fun _ _ => (0 : ℚ))).i = 0 then 0
        else (_reset (by decide : 0 < 2) (fun _ _ => (0 : ℚ))).first_node) ∧
      (_step (_reset (by decide : 0 < 2) (fun _ _ => (0 : ℚ))) 0).current_node = 0 ∧
      (_step (_reset (by decide : 0 < 2) (fun _ _ => (0 : ℚ))) 0).action_mask 0 = false ∧
      (∀ j, j ≠ 0 →
        (_step (_reset (by decide : 0 < 2) (fun _ _ => (0 : ℚ))) 0).action_mask j =
          (_reset (by decide : 0 < 2) (fun _ _ => (0 : ℚ))).action_mask j) ∧
      (_step (_reset (by decide : 0 < 2) (fun _ _ => (0 : ℚ))) 0).i =
        (_reset (by decide : 0 < 2) (fun _ _ => (0 : ℚ))).i + 1 ∧
      (isDone (_step (_reset (by decide : 0 < 2) (fun _ _ => (0 : ℚ))) 0) = true ↔
        ∀ j, (_step (_reset (by decide : 0 < 2) (fun _ _ => (0 : ℚ))) 0).action_mask j = false) ∧
      ∀ (hn : 0 < 2) (dm : Fin 2 → Fin 2 → ℚ) (acts : List (Fin 2)),
        legalSeq (_reset hn dm) acts = true →
        (isDone (runSteps (_reset hn dm) acts) = true ↔
          (runSteps (_reset hn dm) acts).i = 2)) :=
  ⟨by decide, C5_step_effects (_reset (by decide : 0 < 2) (fun _ _ => (0 : ℚ))) 0 (by decide)⟩

/-- Concrete two-node state whose nodes are all already visited: every
mask entry is false, one step has been taken. -/
def exhaustedState : EpisodeState 2 :=
  { observation := fun _ _ => (0 : ℚ)
    first_node := 0
    current_node := 0
    i := 1
    action_mask := fun _ => false }

/-- C8 counterexample: the source `_step` has no legality guard. On a
concrete state whose mask entry for the action is already false, `_step`
returns normally (no error value exists in its type) and the returned
state differs from the input: the step index is incremented. This
contradicts the claim that such a call is rejected without mutation. -/
theorem C8_counterexample :
    exhaustedState.action_mask (0 : Fin 2) = false ∧
    (_step exhaustedState (0 : Fin 2)).i = 2 ∧
    (_step exhaustedState (0 : Fin 2)).i ≠ exhaustedState.i := by
  refine ⟨rfl, rfl, by decide⟩

/-- C8 amended: `_step` does not guard against an action whose mask entry
is already false; it proceeds as a normal step whose mask write is a
no-op — `currentNode` becomes the action, `firstNode` is updated when the
step index is 0, the step index is incremented, and the mask and
observation are unchanged. -/
theorem C8_amended_no_guard {n : ℕ} (td : EpisodeState n) (a : Fin n)
    (h : td.action_mask a = false) :
    (_step td a).action_mask = td.action_mask ∧
    (_step td a).current_node = a ∧
    (_step td a).i = td.i + 1 ∧
    ((_step td a).first_node = if td.i = 0 then a else td.first_node) ∧
    (_step td a).observation = td.observation := by
  refine ⟨?_, rfl, rfl, rfl, rfl⟩
  funext j
  by_cases hj : j = a <;> simp [_step, hj, h]

theorem C8_amended_no_guard_witness :
    exhaustedState.action_mask (0 : Fin 2) = false ∧
    ((_step exhaustedState (0 : Fin 2)).action_mask = exhaustedState.action_mask ∧
      (_step exhaustedState (0 : Fin 2)).current_node = 0 ∧
      (_step exhaustedState (0 : Fin 2)).i = exhaustedState.i + 1 ∧
      ((_step exhaustedState (0 : Fin 2)).first_node =
        if exhaustedState.i = 0 then 0 else exhaustedState.first_node) ∧
      (_step exhaustedState (0 : Fin 2)).observation = exhaustedState.observation) :=
  ⟨rfl, C8_amended_no_guard exhaustedState (0 : Fin 2) rfl⟩

/-- C10: `_reset` stores any supplied matrix verbatim as the observation,
with no hypothesis on the matrix (no triangle-inequality, bounds or
diagonal check), and every `_step` passes the observation through
unchanged, so after any action sequence the observation is still exactly
the matrix supplied at reset. -/
theorem C10_observation_verbatim {n : ℕ} (hn : 0 < n) (dm : Fin n → Fin n → ℚ)
    (acts : List (Fin n)) :
    (_reset hn dm).observation = dm ∧
    (∀ (td : EpisodeState n) (a : Fin n), (_step td a).observation = td.observation) ∧
    (runSteps (_reset hn dm) acts).observation = dm := by
  exact ⟨rfl, fun td a => rfl, runSteps_observation _ acts⟩

section Scorer

lemma roll1_length {α : Type} (l : List α) : (roll1 l).length = l.length := by
  cases l with
  | nil => rfl
  | cons x xs => simp [roll1]

/-- The cyclic predecessor index `(i - 1) mod m` of `i` in `[0, m)`. -/
def prevIdx {m : ℕ} (i : Fin m) : Fin m :=
  ⟨(i.val + m - 1) % m, Nat.mod_lt _ i.pos⟩

lemma roll1_get {α : Type} (l : List α) (k : ℕ) (hk : k < l.length)
    (h2 : k < (roll1 l).length) :
    (roll1 l).get ⟨k, h2⟩ = l.get (prevIdx (⟨k, hk⟩ : Fin l.length)) := by
  rw [List.get_eq_getElem, List.get_eq_getElem]
  cases l with
  | nil => simp at hk
  | cons x xs =>
    rcases k with _ | k
    · have hidx : (prevIdx (⟨0, hk⟩ : Fin (x :: xs).length)).val = xs.length := by
        show (0 + (x :: xs).length - 1) % (x :: xs).length = xs.length
        rw [List.length_cons, Nat.zero_add, Nat.add_sub_cancel,
          Nat.mod_eq_of_lt (by omega)]
      simp only [roll1, List.getElem_cons_zero, hidx]
      rw [List.getLast_eq_getElem]
      simp
    · have hidx : (prevIdx (⟨k + 1, hk⟩ : Fin (x :: xs).length)).val = k := by
        show (k + 1 + (x :: xs).length - 1) % (x :: xs).length = k
        rw [List.length_cons]
        have harg : k + 1 + (xs.length + 1) - 1 = k + (xs.length + 1) := by omega
        rw [harg, Nat.add_mod_right,
          Nat.mod_eq_of_lt (by simp only [List.length_cons] at hk; omega)]
      simp only [roll1, List.getElem_cons_succ, hidx]
      rw [List.getElem_dropLast]

lemma tourCost_eq_sum {n : ℕ} (d : Fin n → Fin n → ℚ) (l : List (Fin n)) :
    tourCost d l = ∑ i : Fin l.length, d (l.get i) (l.get (prevIdx i)) := by
  rw [← List.sum_ofFn, tourCost]
  congr 1
  apply List.ext_getElem
  · simp [roll1_length]
  · intro k h1 h2
    have hk : k < l.length := by
      simpa [roll1_length] using h1
    have hr : k < (roll1 l).length := by rwa [roll1_length]
    simp only [List.getElem_map, List.getElem_zip, List.getElem_ofFn]
    have hg := roll1_get l k hk hr
    rw [List.get_eq_getElem, List.get_eq_getElem] at hg
    rw [hg]
    rfl

lemma sort_eq_range_iff {n : ℕ} (a : List (Fin n)) :
    List.insertionSort (· ≤ ·) (a.map Fin.val) = List.range n ↔
      a.Perm (List.finRange n) := by
  constructor
  · intro h
    have hperm : (a.map Fin.val).Perm (List.range n) :=
      (h ▸ List.perm_insertionSort (· ≤ ·) (a.map Fin.val)).symm
    rw [List.perm_iff_count]
    intro x
    rw [(List.count_map_of_injective a Fin.val Fin.val_injective x).symm, hperm.count_eq,
      ← List.map_coe_finRange]
    exact List.count_map_of_injective _ Fin.val Fin.val_injective x
  · intro h
    have h2 : (a.map Fin.val).Perm (List.range n) := by
      have hm := h.map Fin.val
      rwa [List.map_coe_finRange] at hm
    exact List.eq_of_perm_of_sorted ((List.perm_insertionSort _ _).trans h2)
      (List.sorted_insertionSort _ _) (List.sorted_le_range n)

lemma tourValid_iff_perm {n : ℕ} (a : List (Fin n)) (ha : a.length = n) :
    tourValid a = true ↔ a.Perm (List.finRange n) := by
  rw [tourValid, decide_eq_true_iff, ha]
  exact sort_eq_range_iff a

end Scorer

/-- C1: on a permutation tour of length `N`, `get_reward` returns the sum
over positions `i` of `d[actions[i], actions[(i-1) mod N]]` (the directed
edge from each node back to its tour predecessor); in particular on a
3-node matrix the tour `[0, 1, 2]` scores `d[0][2] + d[1][0] + d[2][1]`. -/
theorem C1_score_cost {n : ℕ} (d : Fin n → Fin n → ℚ) (actions : List (Fin n))
    (ha : actions.length = n) (hperm : actions.Perm (List.finRange n)) :
    get_reward d actions =
      some (∑ i : Fin actions.length, d (actions.get i) (actions.get (prevIdx i))) ∧
    ∀ d3 : Fin 3 → Fin 3 → ℚ,
      get_reward d3 [0, 1, 2] = some (d3 0 2 + d3 1 0 + d3 2 1) := by
  constructor
  · rw [get_reward, if_pos ((tourValid_iff_perm actions ha).mpr hperm), tourCost_eq_sum]
  · intro d3
    rw [get_reward, if_pos (by decide : tourValid ([0, 1, 2] : List (Fin 3)) = true)]
    have hc : tourCost d3 [0, 1, 2] = d3 0 2 + (d3 1 0 + (d3 2 1 + 0)) := rfl
    rw [hc]
    ring_nf

theorem C1_score_cost_witness :
    (([0, 1, 2] : List (Fin 3)).length = 3 ∧
      ([0, 1, 2] : List (Fin 3)).Perm (List.finRange 3)) ∧
    (get_reward (fun _ _ => (1 : ℚ) : Fin 3 → Fin 3 → ℚ) [0, 1, 2] =
      some (∑ i : Fin ([0, 1, 2] : List (Fin 3)).length,
        (fun (_ _ : Fin 3) => (1 : ℚ)) (([0, 1, 2] : List (Fin 3)).get i)
          (([0, 1, 2] : List (Fin 3)).get (prevIdx i))) ∧
    ∀ d3 : Fin 3 → Fin 3 → ℚ,
      get_reward d3 [0, 1, 2] = some (d3 0 2 + d3 1 0 + d3 2 1)) :=
  ⟨⟨by decide, by decide⟩,
    C1_score_cost (fun _ _ => (1 : ℚ) : Fin 3 → Fin 3 → ℚ) [0, 1, 2] (by decide) (by decide)⟩

/-- C2: for a length-`N` action sequence, `get_reward` fails (the
`"Invalid tour"` assertion, modelled as `none`) exactly when the sequence
is not a permutation of `[0, N)`; on failure no cost value is produced. -/
theorem C2_invalid_tour {n : ℕ} (hn : 1 ≤ n) (d : Fin n → Fin n → ℚ)
    (actions : List (Fin n)) (ha : actions.length = n) :
    get_reward d actions = none ↔ ¬ actions.Perm (List.finRange n) := by
  rw [get_reward]
  by_cases hv : tourValid actions = true
  · simp only [if_pos hv]
    simp [(tourValid_iff_perm actions ha).mp hv]
  · simp only [if_neg hv]
    simp only [true_iff]
    exact fun hp => hv ((tourValid_iff_perm actions ha).mpr hp)

theorem C2_invalid_tour_witness :
    (1 ≤ 2 ∧ ([0, 0] : List (Fin 2)).length = 2) ∧
    (get_reward (fun _ _ => (1 : ℚ) : Fin 2 → Fin 2 → ℚ) [0, 0] = none ↔
      ¬ ([0, 0] : List (Fin 2)).Perm (List.finRange 2)) :=
  ⟨⟨by decide, by decide⟩,
    C2_invalid_tour (by decide) (fun _ _ => (1 : ℚ) : Fin 2 → Fin 2 → ℚ) [0, 0] (by decide)⟩

theorem C10_observation_verbatim_witness :
    ((_reset (by decide : 0 < 2) (fun _ _ => (5 : ℚ))).observation = fun _ _ => (5 : ℚ)) ∧
    (∀ (td : EpisodeState 2) (a : Fin 2), (_step td a).observation = td.observation) ∧
    ((runSteps (_reset (by decide : 0 < 2) (fun _ _ => (5 : ℚ))) [1, 0]).observation =
      fun _ _ => (5 : ℚ)) :=
  C10_observation_verbatim (by decide) (fun _ _ => (5 : ℚ)) [1, 0]

section Generator

variable {n : ℕ} [NeZero n]

lemma relaxPass_le (d : Fin n → Fin n → ℚ) (hdiag : ∀ i, d i i = 0) (i j : Fin n) :
    relaxPass d i j ≤ d i j := by
  have h := Finset.inf'_le (fun k => d i k + d k j) (Finset.mem_univ j)
  rwa [hdiag j, add_zero] at h

lemma relaxPass_nonneg (d : Fin n → Fin n → ℚ) (hnn : ∀ i j, 0 ≤ d i j) (i j : Fin n) :
    0 ≤ relaxPass d i j :=
  Finset.le_inf' _ _ fun k _ => add_nonneg (hnn i k) (hnn k j)

lemma relaxPass_diag (d : Fin n → Fin n → ℚ) (hdiag : ∀ i, d i i = 0)
    (hnn : ∀ i j, 0 ≤ d i j) (i : Fin n) : relaxPass d i i = 0 :=
  le_antisymm (by simpa [hdiag i] using relaxPass_le d hdiag i i)
    (relaxPass_nonneg d hnn i i)

lemma iterate_invariants (d : Fin n → Fin n → ℚ) (hdiag : ∀ i, d i i = 0)
    (hnn : ∀ i j, 0 ≤ d i j) (t : ℕ) :
    (∀ i, (relaxPass^[t] d) i i = 0) ∧ (∀ i j, 0 ≤ (relaxPass^[t] d) i j) := by
  induction t with
  | zero => exact ⟨hdiag, hnn⟩
  | succ t ih =>
    rw [Function.iterate_succ_apply']
    exact ⟨relaxPass_diag _ ih.1 ih.2, relaxPass_nonneg _ ih.2⟩

lemma iterate_antitone (d : Fin n → Fin n → ℚ) (hdiag : ∀ i, d i i = 0)
    (hnn : ∀ i j, 0 ≤ d i j) (t : ℕ) (i j : Fin n) :
    (relaxPass^[t + 1] d) i j ≤ (relaxPass^[t] d) i j := by
  rw [Function.iterate_succ_apply']
  exact relaxPass_le _ (iterate_invariants d hdiag hnn t).1 i j

lemma walkWeight_append (d : Fin n → Fin n → ℚ) (p : List (Fin n)) (a : Fin n)
    (q : List (Fin n)) (i j : Fin n) :
    walkWeight d i (p ++ a :: q) j = walkWeight d i p a + walkWeight d a q j := by
  induction p generalizing i with
  | nil => rfl
  | cons x xs ih => simp [walkWeight, ih, add_assoc]

lemma walkWeight_nonneg (d : Fin n → Fin n → ℚ) (hnn : ∀ i j, 0 ≤ d i j) :
    ∀ (l : List (Fin n)) (i j : Fin n), 0 ≤ walkWeight d i l j := by
  intro l
  induction l with
  | nil => exact fun i j => hnn i j
  | cons x xs ih => exact fun i j => add_nonneg (hnn i x) (ih x j)

lemma exists_dup_decomp {α : Type} :
    ∀ (l : List α), ¬ l.Nodup → ∃ (a : α) (p q r : List α), l = p ++ a :: (q ++ a :: r) := by
  intro l
  induction l with
  | nil => intro h; exact absurd List.nodup_nil h
  | cons x xs ih =>
    intro h
    rw [List.nodup_cons] at h
    by_cases hx : x ∈ xs
    · obtain ⟨s, t, rfl⟩ := List.append_of_mem hx
      exact ⟨x, [], s, t, rfl⟩
    · have hxs : ¬ xs.Nodup := fun hnd => h ⟨hx, hnd⟩
      obtain ⟨a, p, q, r, rfl⟩ := ih hxs
      exact ⟨a, x :: p, q, r, rfl⟩

lemma walk_shorten (d : Fin n → Fin n → ℚ) (hnn : ∀ i j, 0 ≤ d i j) :
    ∀ (m : ℕ) (l : List (Fin n)) (i j : Fin n), l.length ≤ m →
      ∃ l', l'.length + 1 ≤ n ∧ walkWeight d i l' j ≤ walkWeight d i l j := by
  intro m
  induction m with
  | zero =>
    intro l i j hl
    refine ⟨l, ?_, le_refl _⟩
    have hlen : l.length = 0 := Nat.le_zero.mp hl
    rw [hlen]
    exact Nat.pos_of_ne_zero (NeZero.ne n)
  | succ m ih =>
    intro l i j hl
    by_cases hshort : l.length + 1 ≤ n
    · exact ⟨l, hshort, le_refl _⟩
    · have hnd : ¬ (i :: l).Nodup := by
        intro hnd
        have hcard := hnd.length_le_card
        rw [List.length_cons, Fintype.card_fin] at hcard
        omega
      obtain ⟨a, p, q, r, hdec⟩ := exists_dup_decomp (i :: l) hnd
      cases p with
      | nil =>
        rw [List.nil_append] at hdec
        injection hdec with hx hl2
        subst hx
        subst hl2
        have hww : walkWeight d i r j ≤ walkWeight d i (q ++ i :: r) j := by
          rw [walkWeight_append]
          have h0 := walkWeight_nonneg d hnn q i i
          linarith
        have hr : r.length ≤ m := by
          simp only [List.length_append, List.length_cons] at hl
          omega
        obtain ⟨l', hl'1, hl'2⟩ := ih r i j hr
        exact ⟨l', hl'1, le_trans hl'2 hww⟩
      | cons x p' =>
        rw [List.cons_append] at hdec
        injection hdec with hx hl2
        subst hx
        subst hl2
        have hww : walkWeight d i (p' ++ a :: r) j ≤
            walkWeight d i (p' ++ a :: (q ++ a :: r)) j := by
          rw [walkWeight_append, walkWeight_append, walkWeight_append]
          have h0 := walkWeight_nonneg d hnn q a a
          linarith
        have hlen : (p' ++ a :: r).length ≤ m := by
          simp only [List.length_append, List.length_cons] at hl ⊢
          omega
        obtain ⟨l', hl'1, hl'2⟩ := ih (p' ++ a :: r) i j hlen
        exact ⟨l', hl'1, le_trans hl'2 hww⟩

lemma iterate_exists_walk (d : Fin n → Fin n → ℚ) :
    ∀ (t : ℕ) (i j : Fin n), ∃ l, (relaxPass^[t] d) i j = walkWeight d i l j := by
  intro t
  induction t with
  | zero => exact fun i j => ⟨[], rfl⟩
  | succ t ih =>
    intro i j
    rw [Function.iterate_succ_apply']
    obtain ⟨k, -, hk⟩ := Finset.exists_mem_eq_inf' (Finset.univ_nonempty (α := Fin n))
      (fun k => (relaxPass^[t] d) i k + (relaxPass^[t] d) k j)
    obtain ⟨l1, h1⟩ := ih i k
    obtain ⟨l2, h2⟩ := ih k j
    refine ⟨l1 ++ k :: l2, ?_⟩
    rw [walkWeight_append, ← h1, ← h2]
    exact hk

lemma iterate_le_walk (d : Fin n → Fin n → ℚ) (hdiag : ∀ i, d i i = 0)
    (hnn : ∀ i j, 0 ≤ d i j) :
    ∀ (t : ℕ) (l : List (Fin n)) (i j : Fin n), l.length + 1 ≤ 2 ^ t →
      (relaxPass^[t] d) i j ≤ walkWeight d i l j := by
  intro t
  induction t with
  | zero =>
    intro l i j hl
    have hnil : l = [] := List.length_eq_zero.mp (by simpa using hl)
    subst hnil
    exact le_of_eq rfl
  | succ t ih =>
    intro l i j hl
    by_cases hshort : l.length + 1 ≤ 2 ^ t
    · exact le_trans (iterate_antitone d hdiag hnn t i j) (ih l i j hshort)
    · have hp2 : 0 < 2 ^ t := Nat.pos_pow_of_pos t (by omega)
      have h2 : 2 ^ (t + 1) = 2 ^ t + 2 ^ t := by rw [pow_succ]; ring
      have hmlt : 2 ^ t - 1 < l.length := by omega
      have hdec : l = l.take (2 ^ t - 1) ++
          l.get ⟨2 ^ t - 1, hmlt⟩ :: l.drop (2 ^ t - 1 + 1) := by
        conv_lhs => rw [← List.take_append_drop (2 ^ t - 1) l]
        rw [List.drop_eq_getElem_cons hmlt]
        rfl
      have hpb : (l.take (2 ^ t - 1)).length + 1 ≤ 2 ^ t := by
        rw [List.length_take]
        omega
      have hqb : (l.drop (2 ^ t - 1 + 1)).length + 1 ≤ 2 ^ t := by
        rw [List.length_drop]
        omega
      rw [Function.iterate_succ_apply']
      calc relaxPass (relaxPass^[t] d) i j ≤
            (relaxPass^[t] d) i (l.get ⟨2 ^ t - 1, hmlt⟩) +
              (relaxPass^[t] d) (l.get ⟨2 ^ t - 1, hmlt⟩) j :=
            Finset.inf'_le _ (Finset.mem_univ _)
        _ ≤ walkWeight d i (l.take (2 ^ t - 1)) (l.get ⟨2 ^ t - 1, hmlt⟩) +
              walkWeight d (l.get ⟨2 ^ t - 1, hmlt⟩) (l.drop (2 ^ t - 1 + 1)) j :=
            add_le_add (ih _ i _ hpb) (ih _ _ j hqb)
        _ = walkWeight d i l j := by
            conv_rhs => rw [hdec]
            rw [walkWeight_append]

lemma iterate_fix (d : Fin n → Fin n → ℚ) (hdiag : ∀ i, d i i = 0)
    (hnn : ∀ i j, 0 ≤ d i j) :
    relaxPass (relaxPass^[Nat.clog 2 n] d) = relaxPass^[Nat.clog 2 n] d := by
  funext i j
  apply le_antisymm
  · rw [← Function.iterate_succ_apply' relaxPass (Nat.clog 2 n) d]
    exact iterate_antitone d hdiag hnn (Nat.clog 2 n) i j
  · rw [← Function.iterate_succ_apply' relaxPass (Nat.clog 2 n) d]
    obtain ⟨l, hl⟩ := iterate_exists_walk d (Nat.clog 2 n + 1) i j
    rw [hl]
    obtain ⟨l', hl'len, hl'le⟩ := walk_shorten d hnn l.length l i j (le_refl _)
    refine le_trans (iterate_le_walk d hdiag hnn (Nat.clog 2 n) l' i j ?_) hl'le
    exact le_trans hl'len (Nat.le_pow_clog one_lt_two n)

lemma closureLoop_fix :
    ∀ (fuel : ℕ) (d : Fin n → Fin n → ℚ),
      relaxPass^[fuel + 1] d = relaxPass^[fuel] d →
      relaxPass (closureLoop (fuel + 1) d) = closureLoop (fuel + 1) d := by
  intro fuel
  induction fuel with
  | zero =>
    intro d h
    have h' : relaxPass d = d := by simpa using h
    simp only [closureLoop, if_pos h']
    rw [h']
    exact h'
  | succ fuel ih =>
    intro d h
    by_cases hfix : relaxPass d = d
    · simp only [closureLoop, if_pos hfix]
      rw [hfix]
      exact hfix
    · simp only [closureLoop, if_neg hfix]
      apply ih (relaxPass d)
      rw [← Function.iterate_succ_apply, ← Function.iterate_succ_apply]
      exact h

lemma closureLoop_invariants :
    ∀ (fuel : ℕ) (d : Fin n → Fin n → ℚ), (∀ i, d i i = 0) → (∀ i j, 0 ≤ d i j) →
      (∀ i j, closureLoop fuel d i j ≤ d i j) ∧
      (∀ i j, 0 ≤ closureLoop fuel d i j) ∧
      (∀ i, closureLoop fuel d i i = 0) := by
  intro fuel
  induction fuel with
  | zero => exact fun d hdiag hnn => ⟨fun i j => le_refl _, hnn, hdiag⟩
  | succ fuel ih =>
    intro d hdiag hnn
    by_cases hfix : relaxPass d = d
    · simp only [closureLoop, if_pos hfix]
      exact ⟨relaxPass_le d hdiag, relaxPass_nonneg d hnn, relaxPass_diag d hdiag hnn⟩
    · simp only [closureLoop, if_neg hfix]
      obtain ⟨h1, h2, h3⟩ :=
        ih (relaxPass d) (relaxPass_diag d hdiag hnn) (relaxPass_nonneg d hnn)
      exact ⟨fun i j => le_trans (h1 i j) (relaxPass_le d hdiag i j), h2, h3⟩

lemma closureLoop_of_fix (fuel : ℕ) (d : Fin n → Fin n → ℚ)
    (h : relaxPass d = d) : closureLoop fuel d = d := by
  cases fuel with
  | zero => rfl
  | succ fuel =>
    simp only [closureLoop, if_pos h]
    exact h

lemma relaxPass_unit_fix :
    relaxPass (fun (i j : Fin n) => if i = j then (0 : ℚ) else 1) =
      fun (i j : Fin n) => if i = j then (0 : ℚ) else 1 := by
  funext i j
  by_cases hij : i = j
  · subst hij
    rw [if_pos rfl]
    apply le_antisymm
    · calc relaxPass (fun (i j : Fin n) => if i = j then (0 : ℚ) else 1) i i ≤
            (if i = i then (0 : ℚ) else 1) + (if i = i then (0 : ℚ) else 1) :=
            Finset.inf'_le _ (Finset.mem_univ i)
        _ = 0 := by norm_num
    · apply Finset.le_inf'
      intro k _
      show (0 : ℚ) ≤ (if i = k then (0 : ℚ) else 1) + (if k = i then (0 : ℚ) else 1)
      have h1 : (0 : ℚ) ≤ if i = k then (0 : ℚ) else 1 := by split <;> norm_num
      have h2 : (0 : ℚ) ≤ if k = i then (0 : ℚ) else 1 := by split <;> norm_num
      linarith
  · rw [if_neg hij]
    apply le_antisymm
    · calc relaxPass (fun (i j : Fin n) => if i = j then (0 : ℚ) else 1) i j ≤
            (if i = j then (0 : ℚ) else 1) + (if j = j then (0 : ℚ) else 1) :=
            Finset.inf'_le _ (Finset.mem_univ j)
        _ = 1 := by rw [if_neg hij, if_pos rfl, add_zero]
    · apply Finset.le_inf'
      intro k _
      show (1 : ℚ) ≤ (if i = k then (0 : ℚ) else 1) + (if k = j then (0 : ℚ) else 1)
      by_cases hik : i = k
      · have hkj : ¬ k = j := fun hkj => hij (hik.trans hkj)
        simp [hik, hkj]
      · have h2 : (0 : ℚ) ≤ if k = j then (0 : ℚ) else 1 := by split <;> norm_num
        rw [if_neg hik]
        linarith

lemma initDM_diag (minD maxD : ℚ) (r : Fin n → Fin n → ℚ) (i : Fin n) :
    initDM n minD maxD r i i = 0 := by
  simp [initDM]

lemma initDM_nonneg (minD maxD : ℚ) (h0 : 0 ≤ minD) (h1 : minD ≤ maxD)
    (r : Fin n → Fin n → ℚ) (hr : ∀ i j, 0 ≤ r i j ∧ r i j < 1) (i j : Fin n) :
    0 ≤ initDM n minD maxD r i j := by
  rw [initDM]
  split
  · exact le_refl 0
  · have hmul : 0 ≤ r i j * (maxD - minD) :=
      mul_nonneg (hr i j).1 (by linarith)
    linarith

end Generator

/-- C3: every matrix returned by `generate_data` (entries drawn from
`[minDist, maxDist]` with `0 ≤ minDist ≤ maxDist`, zero diagonal, then
relaxed to a fixpoint) satisfies the triangle inequality
`d[i][j] ≤ d[i][k] + d[k][j]` for all ordered triples and has a zero
diagonal. -/
theorem C3_generator_triangle {n : ℕ} [NeZero n] (minD maxD : ℚ) (h0 : 0 ≤ minD)
    (h1 : minD ≤ maxD) (r : Fin n → Fin n → ℚ) (hr : ∀ i j, 0 ≤ r i j ∧ r i j < 1) :
    (∀ i j k, generate_data n minD maxD r i j ≤
      generate_data n minD maxD r i k + generate_data n minD maxD r k j) ∧
    (∀ i, generate_data n minD maxD r i i = 0) := by
  have hdiag := initDM_diag (n := n) minD maxD r
  have hnn := initDM_nonneg (n := n) minD maxD h0 h1 r hr
  have hfix : relaxPass (generate_data n minD maxD r) = generate_data n minD maxD r := by
    apply closureLoop_fix (Nat.clog 2 n)
    rw [Function.iterate_succ_apply']
    exact iterate_fix _ hdiag hnn
  constructor
  · intro i j k
    conv_lhs => rw [← hfix]
    exact Finset.inf'_le _ (Finset.mem_univ k)
  · exact (closureLoop_invariants _ _ hdiag hnn).2.2

theorem C3_generator_triangle_witness :
    ((0 : ℚ) ≤ 0 ∧ (0 : ℚ) ≤ 1 ∧
      (∀ i j : Fin 2, 0 ≤ (0 : ℚ) ∧ (0 : ℚ) < 1)) ∧
    ((∀ i j k, generate_data 2 0 1 (fun _ _ => 0) i j ≤
      generate_data 2 0 1 (fun _ _ => 0) i k + generate_data 2 0 1 (fun _ _ => 0) k j) ∧
    (∀ i, generate_data 2 0 1 (fun _ _ => 0) i i = 0)) :=
  ⟨⟨by norm_num, by norm_num, fun i j => by norm_num⟩,
    C3_generator_triangle 0 1 (by norm_num) (by norm_num) (fun _ _ => 0)
      (fun i j => by norm_num)⟩

/-- C6: the relaxation loop, on any input matrix with zero diagonal and
non-negative entries, never increases an entry, never produces a negative
entry, and keeps the diagonal exactly 0, whatever the pass budget. -/
theorem C6_closure_monotone {n : ℕ} [NeZero n] (fuel : ℕ) (d : Fin n → Fin n → ℚ)
    (hdiag : ∀ i, d i i = 0) (hnn : ∀ i j, 0 ≤ d i j) :
    (∀ i j, closureLoop fuel d i j ≤ d i j) ∧
    (∀ i j, 0 ≤ closureLoop fuel d i j) ∧
    (∀ i, closureLoop fuel d i i = 0) :=
  closureLoop_invariants fuel d hdiag hnn

theorem C6_closure_monotone_witness :
    ((∀ i : Fin 2, (fun (_ _ : Fin 2) => (0 : ℚ)) i i = 0) ∧
      (∀ i j : Fin 2, (0 : ℚ) ≤ (fun (_ _ : Fin 2) => (0 : ℚ)) i j)) ∧
    ((∀ i j, closureLoop 1 (fun (_ _ : Fin 2) => (0 : ℚ)) i j ≤
        (fun (_ _ : Fin 2) => (0 : ℚ)) i j) ∧
      (∀ i j, 0 ≤ closureLoop 1 (fun (_ _ : Fin 2) => (0 : ℚ)) i j) ∧
      (∀ i, closureLoop 1 (fun (_ _ : Fin 2) => (0 : ℚ)) i i = 0)) :=
  ⟨⟨fun i => rfl, fun i j => le_refl 0⟩,
    C6_closure_monotone 1 (fun _ _ => 0) (fun i => rfl) (fun i j => le_refl 0)⟩

/-- C7: on any matrix with zero diagonal and non-negative entries the
relaxation reaches a fixpoint; after `⌈log₂ n⌉` passes a further pass
changes nothing, so `⌈log₂ n⌉ + 1` passes are a safe upper bound for the
loop, and the loop run with that budget indeed returns a fixpoint. -/
theorem C7_closure_terminates {n : ℕ} [NeZero n] (d : Fin n → Fin n → ℚ)
    (hdiag : ∀ i, d i i = 0) (hnn : ∀ i j, 0 ≤ d i j) :
    relaxPass (relaxPass^[Nat.clog 2 n] d) = relaxPass^[Nat.clog 2 n] d ∧
    relaxPass (closureLoop (Nat.clog 2 n + 1) d) = closureLoop (Nat.clog 2 n + 1) d := by
  refine ⟨iterate_fix d hdiag hnn, ?_⟩
  apply closureLoop_fix
  rw [Function.iterate_succ_apply']
  exact iterate_fix d hdiag hnn

theorem C7_closure_terminates_witness :
    ((∀ i : Fin 2, (fun (_ _ : Fin 2) => (0 : ℚ)) i i = 0) ∧
      (∀ i j : Fin 2, (0 : ℚ) ≤ (fun (_ _ : Fin 2) => (0 : ℚ)) i j)) ∧
    (relaxPass (relaxPass^[Nat.clog 2 2] (fun (_ _ : Fin 2) => (0 : ℚ))) =
        relaxPass^[Nat.clog 2 2] (fun (_ _ : Fin 2) => (0 : ℚ)) ∧
      relaxPass (closureLoop (Nat.clog 2 2 + 1) (fun (_ _ : Fin 2) => (0 : ℚ))) =
        closureLoop (Nat.clog 2 2 + 1) (fun (_ _ : Fin 2) => (0 : ℚ))) :=
  ⟨⟨fun i => rfl, fun i j => le_refl 0⟩,
    C7_closure_terminates (fun _ _ => 0) (fun i => rfl) (fun i j => le_refl 0)⟩

/-- C9 counterexample: neither `ATSPEnv.__init__` nor `generate_data`
validates the configuration. With `minDist = 1 > 0 = maxDist` the
generator does not signal any error: it silently draws entries from the
reversed interval and returns a matrix (here the all-ones off-diagonal
matrix), contradicting the claim that a ConfigError is surfaced and no
matrix is produced. -/
theorem C9_counterexample :
    (0 : ℚ) < 1 ∧
    generate_data 2 1 0 (fun _ _ => 0) = fun i j => if i = j then 0 else 1 := by
  refine ⟨by norm_num, ?_⟩
  have hM : initDM 2 1 0 (fun _ _ => 0) = fun i j => if i = j then (0 : ℚ) else 1 := by
    funext i j
    rw [initDM]
    split <;> norm_num
  rw [generate_data, hM]
  exact closureLoop_of_fix _ _ relaxPass_unit_fix

/-- C9 amended: invalid bounds are not validated anywhere: `generate_data`
is the plain relaxation of the unchecked draw, and when
`maxDist < minDist` every off-diagonal pre-closure entry lies in the
silently reversed interval `(maxDist, minDist]` while the diagonal is 0;
no error is signalled. -/
theorem C9_amended_no_validation {n : ℕ} [NeZero n] (minD maxD : ℚ)
    (hlt : maxD < minD) (r : Fin n → Fin n → ℚ) (hr : ∀ i j, 0 ≤ r i j ∧ r i j < 1) :
    generate_data n minD maxD r = closureLoop (Nat.clog 2 n + 1) (initDM n minD maxD r) ∧
    (∀ i j, i ≠ j → maxD < initDM n minD maxD r i j ∧ initDM n minD maxD r i j ≤ minD) ∧
    (∀ i, initDM n minD maxD r i i = 0) := by
  refine ⟨rfl, ?_, initDM_diag minD maxD r⟩
  intro i j hij
  rw [initDM, if_neg hij]
  constructor
  · nlinarith [(hr i j).1, (hr i j).2]
  · nlinarith [(hr i j).1, (hr i j).2]

theorem C9_amended_no_validation_witness :
    ((0 : ℚ) < 1 ∧ (∀ i j : Fin 2, 0 ≤ (0 : ℚ) ∧ (0 : ℚ) < 1)) ∧
    (generate_data 2 1 0 (fun _ _ => 0) =
        closureLoop (Nat.clog 2 2 + 1) (initDM 2 1 0 (fun _ _ => 0)) ∧
      (∀ i j, i ≠ j →
        (0 : ℚ) < initDM 2 1 0 (fun _ _ => 0) i j ∧ initDM 2 1 0 (fun _ _ => 0) i j ≤ 1) ∧
      (∀ i, initDM 2 1 0 (fun _ _ => 0) i i = 0)) :=
  ⟨⟨by norm_num, fun i j => by norm_num⟩,
    C9_amended_no_validation 1 0 (by norm_num) (fun _ _ => 0) (fun i j => by norm_num)⟩

end ATSP
